import Mathlib

/-!
Verification of the retrieval-augmented answering pipeline of
`backend/app/services/retriever.py` and `backend/app/services/indexer.py`
(generic-data-rag-agent), via a shallow embedding in Lean.

Python values (the universe manipulated by the code: JSON-decoded objects,
metadata mappings, chunk records) are modelled by the inductive `PyVal`.
Strings are modelled as `List Char`; Python float distances as `ℚ` (the code
performs only order comparisons and the affine map `1 - d/2` on them), with
the `float("inf")` sentinel and float `-inf` modelled explicitly.
-/

namespace RagAgent

/-- Python values, as produced by `json.loads` and passed around the service
layer: `None`, booleans, numbers (ints and floats collapsed to `ℚ`), the float
`-inf` (which `1.0 - inf/2.0` produces), strings, lists, and dicts (assoc
lists in insertion order with unique keys; access takes the first match). -/
inductive PyVal where
  | none
  | bool (b : Bool)
  | num (q : ℚ)
  | ninf
  | str (s : List Char)
  | list (xs : List PyVal)
  | dict (fields : List (String × PyVal))

/-- Python truthiness of a value (`if not structured_answer:` in
`answer_query_structured`): `None`, `False`, `0`, `""`, `[]`, `{}` are falsy. -/
def PyVal.truthy : PyVal → Bool
  | .none => false
  | .bool b => b
  | .num q => decide (q ≠ 0)
  | .ninf => true
  | .str s => !s.isEmpty
  | .list xs => !xs.isEmpty
  | .dict fs => !fs.isEmpty

/-- Dict field access, `d.get(k)`: first matching key (Python dicts have
unique keys, so assoc-list first-match equals dict lookup). -/
def jGet (v : PyVal) (k : String) : Option PyVal :=
  match v with
  | .dict fs => fs.lookup k
  | _ => Option.none

mutual

/-- Decidable equality on `PyVal` (hand-written: `deriving` does not handle
the nested lists). -/
def pyDecEq : (a b : PyVal) → Decidable (a = b)
  | .none, .none => isTrue rfl
  | .none, .bool _ | .none, .num _ | .none, .ninf | .none, .str _
  | .none, .list _ | .none, .dict _ => isFalse (fun h => PyVal.noConfusion h)
  | .bool _, .none | .bool _, .num _ | .bool _, .ninf | .bool _, .str _
  | .bool _, .list _ | .bool _, .dict _ => isFalse (fun h => PyVal.noConfusion h)
  | .bool a, .bool b =>
    match decEq a b with
    | isTrue h => isTrue (h ▸ rfl)
    | isFalse h => isFalse (fun hh => h (PyVal.bool.inj hh))
  | .num _, .none | .num _, .bool _ | .num _, .ninf | .num _, .str _
  | .num _, .list _ | .num _, .dict _ => isFalse (fun h => PyVal.noConfusion h)
  | .num a, .num b =>
    match decEq a b with
    | isTrue h => isTrue (h ▸ rfl)
    | isFalse h => isFalse (fun hh => h (PyVal.num.inj hh))
  | .ninf, .none | .ninf, .bool _ | .ninf, .num _ | .ninf, .str _
  | .ninf, .list _ | .ninf, .dict _ => isFalse (fun h => PyVal.noConfusion h)
  | .ninf, .ninf => isTrue rfl
  | .str _, .none | .str _, .bool _ | .str _, .num _ | .str _, .ninf
  | .str _, .list _ | .str _, .dict _ => isFalse (fun h => PyVal.noConfusion h)
  | .str a, .str b =>
    match decEq a b with
    | isTrue h => isTrue (h ▸ rfl)
    | isFalse h => isFalse (fun hh => h (PyVal.str.inj hh))
  | .list _, .none | .list _, .bool _ | .list _, .num _ | .list _, .ninf
  | .list _, .str _ | .list _, .dict _ => isFalse (fun h => PyVal.noConfusion h)
  | .list a, .list b =>
    match pyDecEqList a b with
    | isTrue h => isTrue (h ▸ rfl)
    | isFalse h => isFalse (fun hh => h (PyVal.list.inj hh))
  | .dict _, .none | .dict _, .bool _ | .dict _, .num _ | .dict _, .ninf
  | .dict _, .str _ | .dict _, .list _ => isFalse (fun h => PyVal.noConfusion h)
  | .dict a, .dict b =>
    match pyDecEqFields a b with
    | isTrue h => isTrue (h ▸ rfl)
    | isFalse h => isFalse (fun hh => h (PyVal.dict.inj hh))

/-- Decidable equality on lists of `PyVal`. -/
def pyDecEqList : (a b : List PyVal) → Decidable (a = b)
  | [], [] => isTrue rfl
  | [], _ :: _ => isFalse (fun h => List.noConfusion h)
  | _ :: _, [] => isFalse (fun h => List.noConfusion h)
  | x :: xs, y :: ys =>
    match pyDecEq x y with
    | isTrue h1 =>
      match pyDecEqList xs ys with
      | isTrue h2 => isTrue (h1 ▸ h2 ▸ rfl)
      | isFalse h2 => isFalse (fun hh => h2 (List.cons.inj hh).2
      )
    | isFalse h1 => isFalse (fun hh => h1 (List.cons.inj hh).1)

/-- Decidable equality on `PyVal` dict entry lists. -/
def pyDecEqFields : (a b : List (String × PyVal)) → Decidable (a = b)
  | [], [] => isTrue rfl
  | [], _ :: _ => isFalse (fun h => List.noConfusion h)
  | _ :: _, [] => isFalse (fun h => List.noConfusion h)
  | (k, x) :: xs, (l, y) :: ys =>
    match decEq k l with
    | isTrue hk =>
      match pyDecEq x y with
      | isTrue h1 =>
        match pyDecEqFields xs ys with
        | isTrue h2 => isTrue (hk ▸ h1 ▸ h2 ▸ rfl)
        | isFalse h2 => isFalse (fun hh => h2 (List.cons.inj hh).2)
      | isFalse h1 =>
        isFalse (fun hh => h1 (congrArg Prod.snd (List.cons.inj hh).1))
    | isFalse hk =>
      isFalse (fun hh => hk (congrArg Prod.fst (List.cons.inj hh).1))

end

instance : DecidableEq PyVal := pyDecEq

/-- The single-quote character, used by Python `repr` of strings. -/
def sq : Char := Char.ofNat 39

/-- Left brace / right brace characters (written via `Char.ofNat` so that the
embedding of `'{'`/`'}'` handling is explicit). -/
def lbrace : Char := Char.ofNat 123

def rbrace : Char := Char.ofNat 125

/-- Decimal digits of a natural number, e.g. `natStr 42 = "42"`. -/
def natStr (n : ℕ) : List Char := Nat.toDigits 10 n

/-- Python `str()` of an integer. -/
def intStr (i : ℤ) : List Char :=
  if i < 0 then '-' :: natStr i.natAbs else natStr i.natAbs

/-- Rendering of a `ℚ`-modelled Python number. Integers render exactly as
Python's `str()`; non-integral values render schematically as `num/den`
(no claim in this development depends on Python's float formatting). -/
def ratStr (q : ℚ) : List Char :=
  if q.den = 1 then intStr q.num else intStr q.num ++ '/' :: natStr q.den

mutual

/-- Python `repr()` restricted to the `PyVal` universe (used by `str` on
containers): `None`/`True`/`False`, quoted strings, `[..]` lists and
`{'k': v}` dicts. -/
def pyRepr : PyVal → List Char
  | .none => "None".toList
  | .bool true => "True".toList
  | .bool false => "False".toList
  | .num q => ratStr q
  | .ninf => "-inf".toList
  | .str s => sq :: s ++ [sq]
  | .list xs => '[' :: List.intercalate ", ".toList (pyReprList xs) ++ "]".toList
  | .dict fs => lbrace :: List.intercalate ", ".toList (pyReprFields fs) ++ [rbrace]

/-- `repr` of each element of a Python list. -/
def pyReprList : List PyVal → List (List Char)
  | [] => []
  | v :: vs => pyRepr v :: pyReprList vs

/-- `repr` of each `key: value` entry of a Python dict. -/
def pyReprFields : List (String × PyVal) → List (List Char)
  | [] => []
  | (k, v) :: fs => (sq :: k.toList ++ [sq] ++ ": ".toList ++ pyRepr v) :: pyReprFields fs

end

/-- Python `str()`: identity on strings, `repr`-like otherwise. -/
def pyStr : PyVal → List Char
  | .str s => s
  | v => pyRepr v

/-- Whitespace test (space, newline, tab, carriage return): the characters
relevant to JSON whitespace, Python `str.strip()` and `re.split(r"\s+")` on
the texts this pipeline handles. -/
def isWs (c : Char) : Bool := c == ' ' || c == '\n' || c == '\t' || c == '\r'

/-- Python `str.strip()`: drop leading and trailing whitespace. -/
def stripChars (s : List Char) : List Char :=
  ((s.dropWhile isWs).reverse.dropWhile isWs).reverse

/-- Skip JSON whitespace. -/
def skipWs (s : List Char) : List Char := s.dropWhile isWs

/-- Value of one hexadecimal digit. -/
def hexVal (h : Char) : Option ℕ :=
  if '0' ≤ h ∧ h ≤ '9' then some (h.toNat - '0'.toNat)
  else if 'a' ≤ h ∧ h ≤ 'f' then some (h.toNat - 'a'.toNat + 10)
  else if 'A' ≤ h ∧ h ≤ 'F' then some (h.toNat - 'A'.toNat + 10)
  else Option.none

/-- Decode a single-character JSON escape (the character after `\`). -/
def jEsc (e : Char) : Option Char :=
  if e = '"' then some '"'
  else if e = '\\' then some '\\'
  else if e = '/' then some '/'
  else if e = 'b' then some (Char.ofNat 8)
  else if e = 'f' then some (Char.ofNat 12)
  else if e = 'n' then some '\n'
  else if e = 'r' then some '\r'
  else if e = 't' then some '\t'
  else Option.none

/-- Parse one JSON string body after the opening quote: returns the decoded
characters and the input remaining after the closing quote. Handles the JSON
escapes (`\" \\ \/ \b \f \n \r \t \uXXXX`); rejects raw control characters
and unterminated strings, as Python `json.loads` does. -/
def jStrBody (fuel : ℕ) (s : List Char) : Option (List Char × List Char) :=
  match fuel, s with
  | 0, _ => Option.none
  | _, [] => Option.none
  | fuel + 1, c :: cs =>
    if c = '"' then some ([], cs)
    else if c = '\\' then
      match cs with
      | [] => Option.none
      | e :: cs' =>
        match jEsc e with
        | some d =>
          match jStrBody fuel cs' with
          | some (rest, rem) => some (d :: rest, rem)
          | Option.none => Option.none
        | Option.none =>
          if e = 'u' then
            match cs' with
            | h1 :: h2 :: h3 :: h4 :: cs'' =>
              match hexVal h1, hexVal h2, hexVal h3, hexVal h4 with
              | some a, some b, some c', some d =>
                match jStrBody fuel cs'' with
                | some (rest, rem) =>
                  some (Char.ofNat (((a * 16 + b) * 16 + c') * 16 + d) :: rest, rem)
                | Option.none => Option.none
              | _, _, _, _ => Option.none
            | _ => Option.none
          else Option.none
    else if c.toNat < 32 then Option.none
    else
      match jStrBody fuel cs with
      | some (rest, rem) => some (c :: rest, rem)
      | Option.none => Option.none

/-- Parse a run of decimal digits, returning their value, count, and rest. -/
def jDigits (fuel : ℕ) (acc : ℕ) (cnt : ℕ) (s : List Char) : ℕ × ℕ × List Char :=
  match fuel, s with
  | 0, _ => (acc, cnt, s)
  | _, [] => (acc, cnt, [])
  | fuel + 1, c :: cs =>
    if '0' ≤ c ∧ c ≤ '9' then jDigits fuel (acc * 10 + (c.toNat - '0'.toNat)) (cnt + 1) cs
    else (acc, cnt, c :: cs)

/-- Scale a parsed number by the exponent part following `e`/`E`; if no
digits follow, the `e` is left unconsumed (the overall decode then fails on
the leftover input, as Python's decoder fails on a malformed exponent). -/
def jExpPart (base : ℚ) (rest : List Char) : ℚ × List Char :=
  let (eneg, r1) : Bool × List Char :=
    match rest with
    | '-' :: r => (true, r)
    | '+' :: r => (false, r)
    | _ => (false, rest)
  let (ev, evc, r2) := jDigits (r1.length + 1) 0 0 r1
  if evc = 0 then (base, 'e' :: rest)
  else (if eneg then base / (10 : ℚ) ^ ev else base * (10 : ℚ) ^ ev, r2)

/-- Parse a JSON number (sign, integer part, optional fraction, optional
exponent) as a `ℚ`. -/
def jNum (s : List Char) : Option (ℚ × List Char) :=
  let (neg, s1) : Bool × List Char :=
    match s with
    | '-' :: rest => (true, rest)
    | _ => (false, s)
  let (ip, ipc, s2) := jDigits (s1.length + 1) 0 0 s1
  if ipc = 0 then Option.none
  else
    let (frac, s3) : ℚ × List Char :=
      match s2 with
      | '.' :: rest =>
        let (fp, fpc, s') := jDigits (rest.length + 1) 0 0 rest
        if fpc = 0 then (0, '.' :: rest) else ((fp : ℚ) / (10 : ℚ) ^ fpc, s')
      | _ => (0, s2)
    match s3 with
    | '.' :: _ => Option.none
    | _ =>
      let base : ℚ := (ip : ℚ) + frac
      let (q, s4) : ℚ × List Char :=
        match s3 with
        | 'e' :: rest => jExpPart base rest
        | 'E' :: rest => jExpPart base rest
        | _ => (base, s3)
      some (if neg then -q else q, s4)

/-- Python-dict assignment on an assoc list: replace the value of an existing
key in place, otherwise append (so duplicate keys in a JSON object keep the
last value, exactly as `json.loads` does). -/
def objUpsert (fs : List (String × PyVal)) (k : String) (v : PyVal) :
    List (String × PyVal) :=
  match fs with
  | [] => [(k, v)]
  | (k', v') :: rest =>
    if k' = k then (k', v) :: rest else (k', v') :: objUpsert rest k v

mutual

/-- Parse one JSON value (after skipping leading whitespace). `fuel` bounds
the recursion depth; `jsonDecode` supplies enough fuel for any input, since
every array element / object member consumes at least one character. -/
def jVal (fuel : ℕ) (s : List Char) : Option (PyVal × List Char) :=
  match fuel with
  | 0 => Option.none
  | fuel + 1 =>
    match skipWs s with
    | [] => Option.none
    | c :: cs =>
      if c = '"' then
        match jStrBody (cs.length + 1) cs with
        | some (body, rem) => some (.str body, rem)
        | Option.none => Option.none
      else if c = lbrace then
        match skipWs cs with
        | d :: ds =>
          if d = rbrace then some (.dict [], ds)
          else jObjMembers fuel [] (d :: ds)
        | [] => Option.none
      else if c = '[' then
        match skipWs cs with
        | d :: ds =>
          if d = ']' then some (.list [], ds)
          else jArrItems fuel [] (d :: ds)
        | [] => Option.none
      else if "true".toList.isPrefixOf (c :: cs) then
        some (.bool true, (c :: cs).drop 4)
      else if "false".toList.isPrefixOf (c :: cs) then
        some (.bool false, (c :: cs).drop 5)
      else if "null".toList.isPrefixOf (c :: cs) then
        some (.none, (c :: cs).drop 4)
      else
        match jNum (c :: cs) with
        | some (q, rem) => some (.num q, rem)
        | Option.none => Option.none

/-- Parse the members of a JSON object after `{` (first member pending). -/
def jObjMembers (fuel : ℕ) (acc : List (String × PyVal)) (s : List Char) :
    Option (PyVal × List Char) :=
  match fuel with
  | 0 => Option.none
  | fuel + 1 =>
    match skipWs s with
    | c :: cs =>
      if c = '"' then
        match jStrBody (cs.length + 1) cs with
        | some (key, rem) =>
          match skipWs rem with
          | ':' :: rem' =>
            match jVal fuel rem' with
            | some (v, rem'') =>
              let acc' := objUpsert acc ⟨key⟩ v
              match skipWs rem'' with
              | ',' :: rem''' => jObjMembers fuel acc' rem'''
              | d :: ds => if d = rbrace then some (.dict acc', ds) else Option.none
              | [] => Option.none
            | Option.none => Option.none
          | _ => Option.none
        | Option.none => Option.none
      else Option.none
    | [] => Option.none

/-- Parse the items of a JSON array after `[` (first item pending). -/
def jArrItems (fuel : ℕ) (acc : List PyVal) (s : List Char) :
    Option (PyVal × List Char) :=
  match fuel with
  | 0 => Option.none
  | fuel + 1 =>
    match jVal fuel s with
    | some (v, rem) =>
      match skipWs rem with
      | ',' :: rem' => jArrItems fuel (acc ++ [v]) rem'
      | ']' :: rem' => some (.list (acc ++ [v]), rem')
      | _ => Option.none
    | Option.none => Option.none

end

/-- Model of Python `json.loads`: decode one JSON document, requiring that
nothing but whitespace remains afterwards; `Option.none` models
`json.JSONDecodeError` (the only exception the call sites catch).
Not modelled: Python's non-standard acceptance of `NaN`/`Infinity` literals;
no claim in this development involves those. -/
def jsonDecode (s : List Char) : Option PyVal :=
  match jVal (s.length + 1) s with
  | some (v, rem) => if (skipWs rem).isEmpty then some v else Option.none
  | Option.none => Option.none

/-! ### The parse/repair chain of `_parse_json_response` (retriever.py 242-321) -/

/-- Strategy 2 preprocessing: remove a leading ` ```json ` or ` ``` ` fence
marker and a trailing ` ``` ` marker (`cleaned_text` in the source; the
result is then `.strip()`-ed before decoding). -/
def stripFences (s : List Char) : List Char :=
  let s1 :=
    if "```json".toList.isPrefixOf s then s.drop 7
    else if "```".toList.isPrefixOf s then s.drop 3
    else s
  if "```".toList.isSuffixOf s1 then s1.take (s1.length - 3) else s1

/-- Strategy 3: `re.search(r'\{.*\}', text, re.DOTALL)`. The greedy match,
when it exists, runs from the first `{` to the last `}` of the text (it
exists iff some `}` occurs after the first `{`; since any `}` after a later
`{` is also after the first one, only the first `{` need be considered). -/
def extractBraces (s : List Char) : Option (List Char) :=
  match s.findIdx? (· == lbrace), (s.reverse.findIdx? (· == rbrace)) with
  | some i, some jr =>
    let j := s.length - 1 - jr
    if i < j then some ((s.drop i).take (j - i + 1)) else Option.none
  | _, _ => Option.none

/-- The scanning loop of `_fix_unterminated_json`: walk the text tracking a
(possibly negative) brace counter, remembering `i + 1` for the last position
where a `}` returned the counter to zero (`last_valid_pos`). -/
def braceScan : List Char → ℤ → ℕ → Option ℕ → Option ℕ
  | [], _, _, lvp => lvp
  | c :: rest, cnt, i, lvp =>
    if c = lbrace then braceScan rest (cnt + 1) (i + 1) lvp
    else if c = rbrace then
      let cnt' := cnt - 1
      braceScan rest cnt' (i + 1) (if cnt' = 0 then some (i + 1) else lvp)
    else braceScan rest cnt (i + 1) lvp

/-- Strategy 4 preprocessing, `_fix_unterminated_json`: truncate the text at
the last properly closed brace, or return it unchanged if there is none. -/
def fix_unterminated_json (s : List Char) : List Char :=
  match braceScan s 0 0 Option.none with
  | some p => s.take p
  | Option.none => s

/-- The fixed prefix of the strategy-5 fallback answer text. -/
def fallbackMsg : List Char :=
  ("I can provide information based on the data, though there was a " ++
   "formatting issue with the structured response: ").toList

/-- The truncation `_create_fallback_json` applies to the raw text:
`text[:500] + "..." if len(text) > 500 else text`. -/
def truncate500 (s : List Char) : List Char :=
  if s.length > 500 then s.take 500 ++ "...".toList else s

/-- Strategy 5, `_create_fallback_json`: a minimal valid object built from
the raw text; always an object with a non-empty `answer` string and an empty
`citations` array. -/
def create_fallback_json (s : List Char) : PyVal :=
  .dict [("answer", .str (fallbackMsg ++ truncate500 s)),
         ("citations", .list [])]

/-- `_parse_json_response`: the five strategies in order — (1) direct decode,
(2) decode after stripping code fences, (3) decode the brace-delimited
extract, (4) decode after truncating to the last balanced brace, (5) the
constructed fallback object. Total by construction: it always returns a
value and never raises, mirroring that strategy 5 cannot fail. -/
def parse_json_response (s : List Char) : PyVal :=
  match jsonDecode s with
  | some v => v
  | Option.none =>
    match jsonDecode (stripChars (stripFences s)) with
    | some v => v
    | Option.none =>
      match extractBraces s with
      | some ex =>
        match jsonDecode ex with
        | some v => v
        | Option.none =>
          match jsonDecode (fix_unterminated_json s) with
          | some v => v
          | Option.none => create_fallback_json s
      | Option.none =>
        match jsonDecode (fix_unterminated_json s) with
        | some v => v
        | Option.none => create_fallback_json s

/-! ### Chroma retrieval (`_query_collection`, `retrieve_top_k`) -/

/-- One merged retrieval result dict
`{id, document, metadata, distance, collection}`.
`distance = Option.none` models both Python `None` (as `_query_collection`
emits it for a missing distance) and the `float("inf")` sentinel that
`retrieve_top_k` overwrites it with before sorting — the overwrite is the
identity here, and `Option.none` is ordered as `+∞` (and is "not `None`" for
the downstream `is not None` test, matching the post-overwrite state). -/
structure RResult where
  id : Option String
  document : List Char
  metadata : List (String × PyVal)
  distance : Option ℚ
  collection : String

/-- A successful Chroma query response for the query at hand: the parallel
arrays `documents[0]`, `metadatas[0]`, `distances[0]` and the (possibly
absent / possibly shorter) `ids` array, already unwrapped one nesting level
as in the source. An absent `ids` key is `[None] * len(docs)`, i.e. a list
of `Option.none` entries. -/
structure QueryRes where
  ids : List (Option String)
  docs : List (List Char)
  metas : List (List (String × PyVal))
  dists : List ℚ

/-- The result-building loop of `_query_collection`: for each `i` below
`len(docs)`, out-of-range `ids` fall back to `f"doc_{i}"`, out-of-range
metadata to `{}`, out-of-range distances to `None`. -/
def buildHits (collection_name : String) (q : QueryRes) : List RResult :=
  (List.range q.docs.length).map fun i =>
    { id := match q.ids.get? i with
            | some v => v
            | Option.none => some ⟨"doc_".toList ++ natStr i⟩
      document := (q.docs.get? i).getD []
      metadata := (q.metas.get? i).getD []
      distance := q.dists.get? i
      collection := collection_name }

/-- Outcome of one Chroma collection for the current query: the collection
does not exist (`client.get_collection` raises), the query itself raises, or
the query succeeds with a response. -/
inductive CollState where
  | missing
  | failing
  | ok (q : QueryRes)

/-- `_query_collection`: a missing collection and a failing query are both
swallowed into an empty result list; a successful query is unpacked into
result dicts. -/
def query_collection (st : CollState) (collection_name : String) : List RResult :=
  match st with
  | .missing => []
  | .failing => []
  | .ok q => buildHits collection_name q

/-- The vector store for the current query: each existing collection's name
with its query outcome. A name not present at all behaves as `missing`. -/
def Store := List (String × CollState)

/-- Look up a collection's state; absent collections are `missing`. -/
def lookupState (store : Store) (name : String) : CollState :=
  (List.lookup name store).getD .missing

/-- Sort key comparison: ascending distance with `Option.none` as `+∞`
(`x.get("distance", float("inf"))` after the `None → inf` overwrite). -/
def distLE (a b : Option ℚ) : Bool :=
  match a, b with
  | _, Option.none => true
  | Option.none, some _ => false
  | some x, some y => decide (x ≤ y)

/-- Stable insertion of a result into a distance-sorted list, after all
elements of smaller-or-equal distance (so later-encountered results never
jump ahead of earlier ones of equal distance — the stability guarantee of
Python's `list.sort`). -/
def insertS (a : RResult) : List RResult → List RResult
  | [] => [a]
  | b :: bs => if distLE b.distance a.distance then b :: insertS a bs else a :: b :: bs

/-- `all_results.sort(key=lambda x: x.get("distance", float("inf")))`:
a stable ascending sort by distance. Python's Timsort is modelled by stable
insertion sort — any two stable sorts agree, and stability is proved below
(`sortByDistance_filter`). -/
def sortByDistance (l : List RResult) : List RResult :=
  l.foldl (fun acc a => insertS a acc) []

/-- Dedup key: `(r.get("collection"), r.get("id"))`. -/
def mkey (r : RResult) : String × Option String := (r.collection, r.id)

/-- The dedup-and-truncate loop of `retrieve_top_k`: skip results whose
`(collection, id)` was seen, append the rest, and break as soon as the
accumulated list reaches `top_k` (checked after appending). -/
def dedupLoop (top_k : ℕ) (seen : List (String × Option String))
    (acc : List RResult) : List RResult → List RResult
  | [] => acc.reverse
  | r :: rs =>
    if mkey r ∈ seen then dedupLoop top_k seen acc rs
    else if top_k ≤ acc.length + 1 then (r :: acc).reverse
    else dedupLoop top_k (mkey r :: seen) (r :: acc) rs

/-- The same dedup without truncation, for reasoning: keep the first
occurrence of each unseen key. -/
def dedupAll (seen : List (String × Option String)) : List RResult → List RResult
  | [] => []
  | r :: rs =>
    if mkey r ∈ seen then dedupAll seen rs
    else r :: dedupAll (mkey r :: seen) rs

/-- The flattened per-collection results of `retrieve_top_k`, in collection
iteration order (`all_results` just before the sort; the in-place
`None → float("inf")` distance overwrite is the identity in this model). -/
def allResults (store : Store) (targets : List String) : List RResult :=
  (targets.map (fun n => query_collection (lookupState store n) n)).flatten

/-- The target collections: `file_ids or _list_all_collections(client)` —
note Python's `or` also replaces an *empty* `file_ids` list by all
collections. -/
def targetCollections (store : Store) (file_ids : Option (List String)) : List String :=
  match file_ids with
  | some l => if l.isEmpty then store.map Prod.fst else l
  | Option.none => store.map Prod.fst

/-- `retrieve_top_k`: query every target collection (failures swallowed),
flatten, sort ascending by distance (missing → `+∞`), deduplicate on
`(collection, id)` keeping the first occurrence, and truncate to `top_k`. -/
def retrieve_top_k (store : Store) (top_k : ℕ)
    (file_ids : Option (List String)) : List RResult :=
  dedupLoop top_k [] [] (sortByDistance (allResults store (targetCollections store file_ids)))

/-! ### Prompt construction (`_build_structured_prompt`, retriever.py 137-191) -/

/-- The fixed system-instruction block of `_build_structured_prompt`. -/
def systemInstruction : List Char :=
  ("You are a data analysis assistant. Respond ONLY with valid JSON.\n\n" ++
   "REQUIRED JSON FORMAT (no extra text):\n\x7b\n" ++
   "  \"answer\": \"Complete answer based on the provided data\",\n" ++
   "  \"citations\": [\n    \x7b\n" ++
   "      \"file_id\": \"exact_file_id_from_source\",\n" ++
   "      \"file_name\": \"exact_filename_from_source\",\n" ++
   "      \"anchors\": \"specific_location_info\",\n" ++
   "      \"snippet\": \"relevant_text_under_100_chars\",\n" ++
   "      \"confidence\": 0.95\n    \x7d\n  ]\n\x7d\n\n" ++
   "RULES:\n- Answer must be informative and complete\n" ++
   "- Include citations for every fact mentioned\n" ++
   "- Use exact file_id and file_name from SOURCE entries\n" ++
   "- Keep snippets under 100 characters\n" ++
   "- Confidence: 0.0-1.0 based on relevance\n" ++
   "- If no data matches query: empty citations array\n" ++
   "- Output must be valid JSON only").toList

/-- The anchor list of a result: `f"{k}={meta[k]}"` for each of the four
locator keys present in the metadata, comma-joined. -/
def anchorText (meta : List (String × PyVal)) : List Char :=
  let anchors := ["sheet", "row_index", "page", "paragraph_index"].filterMap
    (fun k => (meta.lookup k).map (fun v => k.toList ++ '=' :: pyStr v))
  List.intercalate ", ".toList anchors

/-- `meta.get("file_name", file_id)` rendered by an enclosing f-string
(`str()` applied to the raw value). -/
def fileNameText (r : RResult) : List Char :=
  match r.metadata.lookup "file_name" with
  | some v => pyStr v
  | Option.none => r.collection.toList

/-- One context line:
`f"SOURCE[{file_id}|{file_name}|{anchor_text}]: {doc}"`. -/
def mkPiece (r : RResult) : List Char :=
  "SOURCE[".toList ++ r.collection.toList ++ '|' :: fileNameText r ++
    '|' :: anchorText r.metadata ++ "]: ".toList ++ r.document

/-- The context-building loop: append whole lines in merged-result order,
breaking as soon as `total + len(piece) > max_chars`; `total` counts only the
appended pieces themselves, not the `"\n\n"` separators added by the later
join. -/
def buildCtxParts (max_chars : ℕ) (total : ℕ) : List RResult → List (List Char)
  | [] => []
  | r :: rs =>
    let piece := mkPiece r
    if max_chars < total + piece.length then []
    else piece :: buildCtxParts max_chars (total + piece.length) rs

/-- The context section: the pieces joined by `"\n\n"`, or the fixed
placeholder when no piece fit. -/
def promptContext (max_chars : ℕ) (retrieved : List RResult) : List Char :=
  let parts := buildCtxParts max_chars 0 retrieved
  if parts.isEmpty then "No relevant data available.".toList
  else List.intercalate "\n\n".toList parts

/-- `_build_structured_prompt` (default budget
`GEMINI_MAX_CONTEXT_CHARS = 4000` from config). -/
def build_structured_prompt (query : String) (retrieved : List RResult)
    (max_chars : ℕ) : List Char :=
  systemInstruction ++ "\n\nCONTEXT:\n".toList ++ promptContext max_chars retrieved ++
    "\n\nQUESTION: ".toList ++ query.toList ++
    "\n\nProvide your response as valid JSON:".toList

/-! ### Structured answering (`answer_query_structured`, retriever.py 325-405) -/

/-- The fallback snippet:
`doc[:200] + "..." if len(doc) > 200 else doc`. -/
def snippetOf (doc : List Char) : List Char :=
  if doc.length > 200 then doc.take 200 ++ "...".toList else doc

/-- The fallback confidence:
`1.0 - (distance / 2.0) if distance is not None else 0.5`. Results coming
out of `retrieve_top_k` always have a non-`None` distance (missing ones were
overwritten with `float("inf")`), so the `0.5` arm is unreachable on this
path; an infinite distance yields `1 - inf/2 = -inf`. No clamping occurs. -/
def confVal (distance : Option ℚ) : PyVal :=
  match distance with
  | some q => .num (1 - q / 2)
  | Option.none => .ninf

/-- One fallback citation dict (the raw `file_name` metadata value is stored
unconverted, as in the source). -/
def fallbackCitation (r : RResult) : PyVal :=
  .dict [("file_id", .str r.collection.toList),
         ("file_name", (r.metadata.lookup "file_name").getD (.str r.collection.toList)),
         ("anchors", .str (anchorText r.metadata)),
         ("snippet", .str (snippetOf r.document)),
         ("confidence", confVal r.distance)]

/-- The citation list of the deterministic fallback: one citation per
retrieved result, truncated to the first 5. -/
def fallbackCitations (retrieved : List RResult) : List PyVal :=
  (retrieved.map fallbackCitation).take 5

/-- One fallback answer part:
`f"According to {file_name}: {doc[:150]}..."` (ellipsis unconditional). -/
def answerPart (r : RResult) : List Char :=
  "According to ".toList ++ fileNameText r ++ ": ".toList ++
    r.document.take 150 ++ "...".toList

/-- The deterministic fallback `structured_answer` built from the retrieved
results (empty retrieval gives the fixed no-data message). -/
def fallbackAnswer (retrieved : List RResult) : PyVal :=
  if retrieved.isEmpty then
    .dict [("answer", .str "No relevant data found to answer the question.".toList),
           ("citations", .list [])]
  else
    .dict [("answer", .str ("Based on the retrieved documents:\n\n".toList ++
              List.intercalate "\n\n".toList ((retrieved.map answerPart).take 3))),
           ("citations", .list (fallbackCitations retrieved))]

/-- Outcome of the generative-backend call attempt: SDK/API key not
configured, the call raised (network/auth/SDK error), or the backend
returned a response text (already `.strip()`-ed in `call_gemini_structured`;
`parse_json_response` then never raises, so a returned text always yields a
parsed value). -/
inductive GenOutcome where
  | unavailable
  | failure
  | ok (text : List Char)

/-- The response dict of `answer_query_structured` (the wall-clock
`latency_s` field is not modelled). -/
structure QAResult where
  structured_answer : PyVal
  sources : List RResult
  gemini_used : Bool
  query : String

/-- `answer_query_structured`: retrieve, attempt the generative call
(`gemini_used` is set `True` before the call and reset to `False` only when
the call raises), and fall back to the deterministic answer whenever the
structured answer is `None` or falsy — note a falsy *parsed* value (e.g.
`{}` or `null`) triggers the fallback while `gemini_used` stays `True`. -/
def answer_query_structured (store : Store) (query : String) (top_k : ℕ)
    (file_ids : Option (List String)) (gen : GenOutcome) : QAResult :=
  let retrieved := retrieve_top_k store top_k file_ids
  let attempt : Bool × Option PyVal :=
    match gen with
    | .unavailable => (false, Option.none)
    | .failure => (false, Option.none)
    | .ok text => (true, some (parse_json_response text))
  let structured : PyVal :=
    match attempt.2 with
    | some v => if v.truthy then v else fallbackAnswer retrieved
    | Option.none => fallbackAnswer retrieved
  { structured_answer := structured
    sources := retrieved
    gemini_used := attempt.1
    query := query }

/-! ### Chunk normalization (`indexer.py` 54-165) -/

/-- `re.split(r"\s+", text.strip())`: the maximal whitespace-free runs of
the text. (For an all-whitespace text Python yields `['']`, whose single
chunk is then discarded by the `if chunk` filter; this model yields `[]`
directly — the chunk lists produced are identical.) -/
def wordsOf (s : List Char) : List (List Char) :=
  match s with
  | [] => []
  | c :: cs =>
    if isWs c then wordsOf cs
    else (c :: cs.takeWhile (fun x => !isWs x)) :: wordsOf (cs.dropWhile (fun x => !isWs x))
termination_by s.length
decreasing_by
  · simp
  · simp only [List.length_cons, Nat.lt_succ_iff]
    exact List.Sublist.length_le (List.dropWhile_sublist _)

/-- The grouping `words[i : i + max_words]` for `i = 0, n, 2n, ...` of
`_chunk_text` (`n ≥ 1`; the configured value is 250). -/
def toGroups {α : Type} (n : ℕ) (l : List α) : List (List α) :=
  match l with
  | [] => []
  | x :: xs => (x :: xs.take (n - 1)) :: toGroups n (xs.drop (n - 1))
termination_by l.length
decreasing_by
  simp only [List.length_cons, List.length_drop]
  omega

/-- `_chunk_text`: split into word groups of at most `max_words` words, join
each group with single spaces, strip, and keep the non-empty chunks. -/
def chunk_text (max_words : ℕ) (s : List Char) : List (List Char) :=
  ((toGroups max_words (wordsOf (stripChars s))).map
    (fun g => stripChars (List.intercalate [' '] g))).filter (fun c => !c.isEmpty)

/-- `val is None` test. -/
def PyVal.isNone : PyVal → Bool
  | .none => true
  | _ => false

/-- The priority key list of `_extract_text_from_dict`. -/
def keyCandidates : List String :=
  ["text", "content", "document", "row_text", "chunk", "excerpt"]

/-- The first priority key holding a string with non-blank content, stripped. -/
def firstTextVal (d : List (String × PyVal)) : Option (List Char) :=
  keyCandidates.findSome? fun k =>
    match d.lookup k with
    | some (.str v) =>
      if (stripChars v).isEmpty then Option.none else some (stripChars v)
    | _ => Option.none

/-- `_extract_text_from_dict`: priority keys, then the `original_row`
stringification (note its `return " | ".join(kvs)` is unconditional — an
empty rendering returns the empty string and the later fallbacks are never
reached), then the concatenation of string-valued fields, then `str(d)`. -/
def extract_text_from_dict (d : List (String × PyVal)) : List Char :=
  match firstTextVal d with
  | some t => t
  | Option.none =>
    match d.lookup "original_row" with
    | some (.dict rows) =>
      List.intercalate " | ".toList
        ((rows.filter (fun kv => !kv.2.isNone)).map
          (fun kv => kv.1.toList ++ '=' :: pyStr kv.2))
    | some (.list xs) =>
      List.intercalate " | ".toList (xs.map pyStr)
    | _ =>
      let pieces := d.filterMap fun kv =>
        match kv.2 with
        | .str s => if (stripChars s).isEmpty then Option.none else some (stripChars s)
        | _ => Option.none
      if pieces.isEmpty then pyRepr (.dict d)
      else List.intercalate " | ".toList pieces

/-- A normalized chunk record `{"id", "text", "meta"}` (the `id` may be a
raw value taken from the input record via `item.get("id", ...)`). -/
structure PChunk where
  id : PyVal
  text : List Char
  meta : List (String × PyVal)

/-- Python dict merge `{**a, **b}`: keys of `a` in order with values
overridden by `b`, then the keys of `b` not in `a`, in order. -/
def dictMerge (a b : List (String × PyVal)) : List (String × PyVal) :=
  a.map (fun kv => (kv.1, (b.lookup kv.1).getD kv.2)) ++
    b.filter (fun kv => (a.lookup kv.1).isNone)

/-- `raw.get("meta", {}) if isinstance(raw.get("meta", {}), dict) else {}`. -/
def metaOf (fs : List (String × PyVal)) : List (String × PyVal) :=
  match fs.lookup "meta" with
  | some (.dict m) => m
  | _ => []

/-- The id `f"{file_id}::txt::{idx}"`. -/
def txtId (file_id : String) (idx : ℕ) : PyVal :=
  .str (file_id.toList ++ "::txt::".toList ++ natStr idx)

/-- The id `f"{file_id}::item::{idx}"`. -/
def itemId (file_id : String) (idx : ℕ) : PyVal :=
  .str (file_id.toList ++ "::item::".toList ++ natStr idx)

/-- The id `f"{file_id}::list::{i}::{idx}"`. -/
def listId (file_id : String) (i idx : ℕ) : PyVal :=
  .str (file_id.toList ++ "::list::".toList ++ natStr i ++ "::".toList ++ natStr idx)

/-- `_normalize_to_chunk_dicts`: normalize parser output of unknown shape
(string / record / sequence of strings, records, or other values) into chunk
records; anything else yields `[]`. All ids are derived from `file_id`,
positional indices, or the record's own `id` field — the function consults
no random or time source, so it is a pure function of its arguments
(`uuid` appears in `index_chunks` only as a default for records lacking an
`"id"` key, which this function never produces). -/
def normalize_to_chunk_dicts (raw : PyVal) (file_id : String)
    (default_meta : List (String × PyVal)) : List PChunk :=
  match raw with
  | .str s =>
    (chunk_text 250 s).enum.map fun it =>
      { id := txtId file_id it.1, text := it.2, meta := default_meta }
  | .dict fs =>
    (chunk_text 250 (extract_text_from_dict fs)).enum.map fun it =>
      { id := (fs.lookup "id").getD (itemId file_id it.1)
        text := it.2
        meta := dictMerge default_meta (metaOf fs) }
  | .list items =>
    (items.enum.map fun el =>
      match el.2 with
      | .str s =>
        (chunk_text 250 s).enum.map fun it =>
          { id := listId file_id el.1 it.1, text := it.2, meta := default_meta }
      | .dict fs =>
        (chunk_text 250 (extract_text_from_dict fs)).enum.map fun it =>
          ({ id := (fs.lookup "id").getD (listId file_id el.1 it.1)
             text := it.2
             meta := dictMerge default_meta (metaOf fs) } : PChunk)
      | other =>
        (chunk_text 250 (pyStr other)).enum.map fun it =>
          { id := listId file_id el.1 it.1, text := it.2, meta := default_meta }).flatten
  | _ => []

/-! ## Theorems

### The parse/repair chain (claims about `_parse_json_response`) -/

/-- If direct decoding succeeds, strategy 1 returns its value unchanged. -/
theorem parse_json_response_of_decode {s : List Char} {v : PyVal}
    (h : jsonDecode s = some v) : parse_json_response s = v := by
  unfold parse_json_response
  rw [h]

/-- If all four decoding strategies fail, the chain lands in strategy 5. -/
theorem parse_json_response_fallback {s : List Char}
    (h1 : jsonDecode s = Option.none)
    (h2 : jsonDecode (stripChars (stripFences s)) = Option.none)
    (h3 : ∀ ex, extractBraces s = some ex → jsonDecode ex = Option.none)
    (h4 : jsonDecode (fix_unterminated_json s) = Option.none) :
    parse_json_response s = create_fallback_json s := by
  simp only [parse_json_response, h1, h2]
  cases hex : extractBraces s with
  | none => simp only [h4]
  | some ex => simp only [h3 ex hex, h4]

/-- The strategy-5 object is truthy (a non-empty dict). -/
theorem create_fallback_json_truthy (s : List Char) :
    (create_fallback_json s).truthy = true := rfl

/-- C10: For every input string, `_parse_json_response` terminates and
returns a value without raising (it is a total function by construction):
when the four decode strategies — direct, fence-stripped, brace-extracted,
balanced-prefix-truncated — all fail, the fifth strategy constructs an
object whose `answer` is a non-empty string embedding the (possibly
truncated) raw text and whose `citations` is the empty array. -/
theorem parse_chain_total (s : List Char) :
    (jsonDecode s = Option.none →
     jsonDecode (stripChars (stripFences s)) = Option.none →
     (∀ ex, extractBraces s = some ex → jsonDecode ex = Option.none) →
     jsonDecode (fix_unterminated_json s) = Option.none →
     parse_json_response s = create_fallback_json s) ∧
    jGet (create_fallback_json s) "answer" = some (.str (fallbackMsg ++ truncate500 s)) ∧
    fallbackMsg ++ truncate500 s ≠ [] ∧
    jGet (create_fallback_json s) "citations" = some (.list []) := by
  refine ⟨fun h1 h2 h3 h4 => parse_json_response_fallback h1 h2 h3 h4, rfl, ?_, rfl⟩
  intro h
  exact absurd (List.append_eq_nil.mp h).1 (by decide)

/-- Concrete run of C10: a text none of the four strategies can decode. -/
def rawText10 : List Char := "The data shows no such record.".toList

/-- Witness for C10 at `rawText10`: all four strategies fail and the chain
returns the strategy-5 object. -/
theorem parse_chain_total_witness :
    parse_json_response rawText10 = create_fallback_json rawText10 :=
  (parse_chain_total rawText10).1 rfl rfl
    (fun _ h => Option.noConfusion ((rfl : extractBraces rawText10 = Option.none).symm.trans h))
    rfl

/-- The unterminated-object scenario text from the specification:
`'{"answer": "partial text'`. -/
def rawText1 : List Char := lbrace :: "\"answer\": \"partial text".toList

/-- A one-collection store whose single query hit is concrete and well
formed (used to make retrieval non-empty in counterexamples). -/
def store1 : Store :=
  [("doc-A", .ok { ids := [some "c1"]
                   docs := ["hello world".toList]
                   metas := [[("file_name", .str "a.csv".toList)]]
                   dists := [1/2] })]

/-- C1 as stated is false: with the unterminated object
`'{"answer": "partial text'` (all four parse strategies fail) and non-empty
retrieval, the response reports the generative backend as **used**
(`gemini_used = true`, not `false`), and the structured answer is the
strategy-5 object built from the raw text (empty citations), not the
fallback synthesized from the retrieval results (whose citations are
non-empty here). -/
theorem answer_malformed_counterexample :
    (answer_query_structured store1 "q" 5 Option.none (.ok rawText1)).gemini_used ≠ false ∧
    (answer_query_structured store1 "q" 5 Option.none (.ok rawText1)).structured_answer
      = create_fallback_json rawText1 ∧
    jGet (answer_query_structured store1 "q" 5 Option.none (.ok rawText1)).structured_answer
      "citations" = some (.list []) ∧
    (answer_query_structured store1 "q" 5 Option.none (.ok rawText1)).sources.length = 1 ∧
    (∃ c, jGet (fallbackAnswer
      (answer_query_structured store1 "q" 5 Option.none (.ok rawText1)).sources)
      "citations" = some (.list [c])) := by
  refine ⟨by decide, rfl, rfl, rfl, ?_⟩
  exact ⟨fallbackCitation
    { id := some "c1"
      document := "hello world".toList
      metadata := [("file_name", .str "a.csv".toList)]
      distance := some (1/2)
      collection := "doc-A" }, rfl⟩

/-- C1 amended: whenever the backend call succeeds but returns a text on
which all four decode strategies fail, the fifth strategy's object (built
from the raw text) becomes the structured answer and the response reports
`gemini_used = true`; the deterministic retrieval fallback with
`gemini_used = false` is reserved for a raising or unavailable backend. -/
theorem answer_malformed_uses_strategy5 (store : Store) (query : String)
    (top_k : ℕ) (fids : Option (List String)) (text : List Char)
    (h1 : jsonDecode text = Option.none)
    (h2 : jsonDecode (stripChars (stripFences text)) = Option.none)
    (h3 : ∀ ex, extractBraces text = some ex → jsonDecode ex = Option.none)
    (h4 : jsonDecode (fix_unterminated_json text) = Option.none) :
    (answer_query_structured store query top_k fids (.ok text)).gemini_used = true ∧
    (answer_query_structured store query top_k fids (.ok text)).structured_answer
      = create_fallback_json text := by
  have hp := parse_json_response_fallback h1 h2 h3 h4
  refine ⟨rfl, ?_⟩
  simp only [answer_query_structured, hp, create_fallback_json_truthy, if_true]

/-- Witness for the amended C1 at the specification's own scenario text. -/
theorem answer_malformed_uses_strategy5_witness :
    (answer_query_structured store1 "q" 5 Option.none (.ok rawText1)).gemini_used = true ∧
    (answer_query_structured store1 "q" 5 Option.none (.ok rawText1)).structured_answer
      = create_fallback_json rawText1 :=
  answer_malformed_uses_strategy5 store1 "q" 5 Option.none rawText1 rfl rfl
    (fun _ h => Option.noConfusion ((rfl : extractBraces rawText1 = Option.none).symm.trans h))
    rfl

/-- A backend response that decodes to an object with a wrong-typed `answer`
(a number) and no `citations` field at all: `{"answer": 42}`. -/
def rawText5 : List Char :=
  lbrace :: "\"answer\": 42".toList ++ [rbrace]

/-- C5 as stated is false: the decoded object `{"answer": 42}` — `answer`
not a string, `citations` missing — is returned to the caller as the final
structured answer; no validation or fallback happens, and the backend is
reported as used. -/
theorem answer_no_validation_counterexample :
    (answer_query_structured store1 "q" 5 Option.none (.ok rawText5)).structured_answer
      = .dict [("answer", .num 42)] ∧
    jGet (answer_query_structured store1 "q" 5 Option.none (.ok rawText5)).structured_answer
      "citations" = Option.none ∧
    jGet (answer_query_structured store1 "q" 5 Option.none (.ok rawText5)).structured_answer
      "answer" = some (.num 42) ∧
    (answer_query_structured store1 "q" 5 Option.none (.ok rawText5)).gemini_used = true :=
  ⟨by with_unfolding_all rfl, by with_unfolding_all rfl, by with_unfolding_all rfl, rfl⟩

/-- C5 amended: `answer_query_structured` performs no schema validation on
the decoded backend output. Any truthy decoded value — with or without an
`answer` string or a `citations` array — is returned to the caller as the
final structured answer; only a falsy decoded value (such as `{}` or
`null`) is replaced by the deterministic retrieval fallback, and in both
cases the backend is reported as used. -/
theorem answer_no_validation (store : Store) (query : String) (top_k : ℕ)
    (fids : Option (List String)) (text : List Char) (v : PyVal)
    (h : jsonDecode text = some v) :
    (v.truthy = true →
      (answer_query_structured store query top_k fids (.ok text)).structured_answer = v) ∧
    (v.truthy = false →
      (answer_query_structured store query top_k fids (.ok text)).structured_answer
        = fallbackAnswer (retrieve_top_k store top_k fids)) ∧
    (answer_query_structured store query top_k fids (.ok text)).gemini_used = true := by
  have hp := parse_json_response_of_decode h
  refine ⟨fun ht => ?_, fun hf => ?_, rfl⟩
  · simp only [answer_query_structured, hp, ht, if_true]
  · simp only [answer_query_structured, hp, hf, Bool.false_eq_true, if_false]

/-- Witness for the amended C5: the truthy object `{"answer": 42}` is passed
through unvalidated, and the falsy decode `{}` (empty object) triggers the
retrieval fallback with `gemini_used` still `true`. -/
theorem answer_no_validation_witness :
    ((PyVal.dict [("answer", .num 42)]).truthy = true →
      (answer_query_structured store1 "q" 5 Option.none (.ok rawText5)).structured_answer
        = .dict [("answer", .num 42)]) ∧
    ((PyVal.dict [("answer", .num 42)]).truthy = false →
      (answer_query_structured store1 "q" 5 Option.none (.ok rawText5)).structured_answer
        = fallbackAnswer (retrieve_top_k store1 5 Option.none)) ∧
    (answer_query_structured store1 "q" 5 Option.none (.ok rawText5)).gemini_used = true :=
  answer_no_validation store1 "q" 5 Option.none rawText5 (.dict [("answer", .num 42)]) (by with_unfolding_all rfl)

/-! ### The merge ordering of `retrieve_top_k` -/

/-- Distance order between results (missing distance = `+∞`). -/
def dLe (a b : RResult) : Prop := distLE a.distance b.distance = true

theorem distLE_refl (a : Option ℚ) : distLE a a = true := by
  cases a with
  | none => rfl
  | some x => simp [distLE]

theorem distLE_total (a b : Option ℚ) : distLE a b = true ∨ distLE b a = true := by
  cases a with
  | none => cases b with
    | none => left; rfl
    | some y => right; rfl
  | some x => cases b with
    | none => left; rfl
    | some y => simpa [distLE] using le_total x y

theorem distLE_trans {a b c : Option ℚ} (h1 : distLE a b = true)
    (h2 : distLE b c = true) : distLE a c = true := by
  cases a with
  | none =>
    cases b with
    | none => exact h2
    | some y => exact absurd h1 (by simp [distLE])
  | some x =>
    cases c with
    | none => rfl
    | some z =>
      cases b with
      | none => exact absurd h2 (by simp [distLE])
      | some y =>
        simp only [distLE, decide_eq_true_eq] at h1 h2 ⊢
        exact le_trans h1 h2

theorem insertS_perm (a : RResult) (l : List RResult) :
    (insertS a l).Perm (a :: l) := by
  induction l with
  | nil => exact List.Perm.refl _
  | cons b bs ih =>
    rw [insertS]
    by_cases h : distLE b.distance a.distance = true
    · rw [if_pos h]
      exact (ih.cons b).trans (List.Perm.swap a b bs)
    · rw [if_neg h]

theorem mem_insertS {x a : RResult} {l : List RResult} :
    x ∈ insertS a l ↔ x = a ∨ x ∈ l := by
  rw [(insertS_perm a l).mem_iff]
  simp

theorem insertS_pairwise {a : RResult} {l : List RResult}
    (h : List.Pairwise dLe l) : List.Pairwise dLe (insertS a l) := by
  induction l with
  | nil => simp [insertS, List.Pairwise.nil]
  | cons b bs ih =>
    rw [insertS]
    rcases List.pairwise_cons.mp h with ⟨hb, hbs⟩
    by_cases hba : distLE b.distance a.distance = true
    · rw [if_pos hba]
      refine List.pairwise_cons.mpr ⟨?_, ih hbs⟩
      intro x hx
      rcases mem_insertS.mp hx with rfl | hx
      · exact hba
      · exact hb x hx
    · rw [if_neg hba]
      have hab : distLE a.distance b.distance = true :=
        (distLE_total a.distance b.distance).resolve_right hba
      refine List.pairwise_cons.mpr ⟨?_, h⟩
      intro x hx
      rcases List.mem_cons.mp hx with rfl | hx
      · exact hab
      · exact distLE_trans hab (hb x hx)

theorem insertS_filter_eq {a : RResult} {l : List RResult} {q : Option ℚ}
    (hs : List.Pairwise dLe l) (ha : a.distance = q) :
    (insertS a l).filter (fun r => decide (r.distance = q)) =
      l.filter (fun r => decide (r.distance = q)) ++ [a] := by
  induction l with
  | nil => simp [insertS, List.filter_cons, ha]
  | cons b bs ih =>
    rw [insertS]
    rcases List.pairwise_cons.mp hs with ⟨hb, hbs⟩
    by_cases hba : distLE b.distance a.distance = true
    · rw [if_pos hba, List.filter_cons, List.filter_cons, ih hbs]
      by_cases hbq : b.distance = q
      · simp [hbq]
      · simp [hbq]
    · rw [if_neg hba]
      have hnil : (b :: bs).filter (fun r => decide (r.distance = q)) = [] := by
        rw [List.filter_eq_nil_iff]
        intro x hx hxq
        rw [decide_eq_true_eq] at hxq
        have hbx : distLE b.distance x.distance = true := by
          rcases List.mem_cons.mp hx with rfl | hx
          · exact distLE_refl _
          · exact hb x hx
        rw [hxq, ← ha] at hbx
        exact hba hbx
      rw [List.filter_cons, hnil]
      simp [ha, hnil]

theorem insertS_filter_ne {a : RResult} {l : List RResult} {q : Option ℚ}
    (ha : a.distance ≠ q) :
    (insertS a l).filter (fun r => decide (r.distance = q)) =
      l.filter (fun r => decide (r.distance = q)) := by
  induction l with
  | nil => simp [insertS, List.filter_cons, ha]
  | cons b bs ih =>
    rw [insertS]
    by_cases hba : distLE b.distance a.distance = true
    · rw [if_pos hba, List.filter_cons, List.filter_cons, ih]
    · rw [if_neg hba, List.filter_cons]
      simp [ha]

theorem sortByDistance_concat (l : List RResult) (a : RResult) :
    sortByDistance (l ++ [a]) = insertS a (sortByDistance l) := by
  unfold sortByDistance
  rw [List.foldl_append]
  rfl

theorem sortByDistance_perm (l : List RResult) : (sortByDistance l).Perm l := by
  induction l using List.reverseRecOn with
  | nil => exact List.Perm.refl _
  | append_singleton l a ih =>
    rw [sortByDistance_concat]
    exact ((insertS_perm a (sortByDistance l)).trans (ih.cons a)).trans
      (List.perm_append_singleton a l).symm

theorem sortByDistance_pairwise (l : List RResult) :
    List.Pairwise dLe (sortByDistance l) := by
  induction l using List.reverseRecOn with
  | nil => exact List.Pairwise.nil
  | append_singleton l a ih =>
    rw [sortByDistance_concat]
    exact insertS_pairwise ih

/-- Stability of the sort: the subsequence of any fixed distance is exactly
the input's subsequence of that distance, in input order. -/
theorem sortByDistance_filter (l : List RResult) (q : Option ℚ) :
    (sortByDistance l).filter (fun r => decide (r.distance = q)) =
      l.filter (fun r => decide (r.distance = q)) := by
  induction l using List.reverseRecOn with
  | nil => rfl
  | append_singleton l a ih =>
    rw [sortByDistance_concat, List.filter_append]
    by_cases ha : a.distance = q
    · rw [insertS_filter_eq (sortByDistance_pairwise l) ha, ih]
      simp [ha]
    · rw [insertS_filter_ne ha, ih]
      simp [List.filter_cons, ha]

theorem dedupAll_sublist (seen : List (String × Option String)) (l : List RResult) :
    (dedupAll seen l).Sublist l := by
  induction l generalizing seen with
  | nil => exact List.Sublist.refl _
  | cons r rs ih =>
    rw [dedupAll]
    by_cases h : mkey r ∈ seen
    · rw [if_pos h]
      exact (ih seen).cons r
    · rw [if_neg h]
      exact (ih (mkey r :: seen)).cons₂ r

theorem dedupAll_nodup (seen : List (String × Option String)) (l : List RResult) :
    ((dedupAll seen l).map mkey).Nodup ∧
      ∀ r ∈ dedupAll seen l, mkey r ∉ seen := by
  induction l generalizing seen with
  | nil => exact ⟨List.Pairwise.nil, by simp [dedupAll]⟩
  | cons r rs ih =>
    rw [dedupAll]
    by_cases h : mkey r ∈ seen
    · rw [if_pos h]
      exact ih seen
    · rw [if_neg h]
      rcases ih (mkey r :: seen) with ⟨hn, hs⟩
      refine ⟨?_, ?_⟩
      · rw [List.map_cons, List.nodup_cons]
        refine ⟨?_, hn⟩
        intro hmem
        rcases List.mem_map.mp hmem with ⟨x, hx, hxk⟩
        exact hs x hx (hxk ▸ List.mem_cons_self _ _)
      · intro x hx
        rcases List.mem_cons.mp hx with rfl | hx
        · exact h
        · intro hxs
          exact hs x hx (List.mem_cons_of_mem _ hxs)

/-- Every kept result has minimal distance among the same-key entries of the
(sorted) list it was deduplicated from. -/
theorem dedupAll_min {l : List RResult} (hs : List.Pairwise dLe l)
    (seen : List (String × Option String)) :
    ∀ r ∈ dedupAll seen l, ∀ r' ∈ l, mkey r' = mkey r →
      distLE r.distance r'.distance = true := by
  induction l generalizing seen with
  | nil => simp
  | cons b bs ih =>
    rw [dedupAll]
    rcases List.pairwise_cons.mp hs with ⟨hb, hbs⟩
    by_cases h : mkey b ∈ seen
    · rw [if_pos h]
      intro r hr r' hr' hk
      rcases List.mem_cons.mp hr' with rfl | hr'
      · exact absurd (hk ▸ h) ((dedupAll_nodup seen bs).2 r hr)
      · exact ih hbs seen r hr r' hr' hk
    · rw [if_neg h]
      intro r hr r' hr' hk
      rcases List.mem_cons.mp hr with rfl | hr
      · rcases List.mem_cons.mp hr' with rfl | hr'
        · exact distLE_refl _
        · exact hb r' hr'
      · rcases List.mem_cons.mp hr' with rfl | hr'
        · have : mkey r ∉ mkey r' :: seen := (dedupAll_nodup _ bs).2 r hr
          exact absurd (hk ▸ List.mem_cons_self _ _) this
        · exact ih hbs (mkey b :: seen) r hr r' hr' hk

/-- The truncating loop equals dedup-then-take while the accumulator is
below `top_k`. -/
theorem dedupLoop_eq (top_k : ℕ) (l : List RResult) :
    ∀ (seen : List (String × Option String)) (acc : List RResult),
      acc.length < top_k →
      dedupLoop top_k seen acc l =
        acc.reverse ++ (dedupAll seen l).take (top_k - acc.length) := by
  induction l with
  | nil => intro seen acc _; simp [dedupLoop, dedupAll]
  | cons r rs ih =>
    intro seen acc hacc
    rw [dedupLoop, dedupAll]
    by_cases h : mkey r ∈ seen
    · rw [if_pos h, if_pos h]
      exact ih seen acc hacc
    · rw [if_neg h, if_neg h]
      by_cases h2 : top_k ≤ acc.length + 1
      · rw [if_pos h2]
        have hone : top_k - acc.length = 1 := by omega
        rw [hone, List.reverse_cons]
        rfl
      · rw [if_neg h2]
        rw [ih (mkey r :: seen) (r :: acc) (by simp only [List.length_cons]; omega)]
        have h3 : top_k - acc.length = (top_k - (r :: acc).length) + 1 := by
          simp only [List.length_cons]
          omega
        rw [h3, List.take_succ_cons, List.reverse_cons, List.append_assoc,
          List.singleton_append]

/-- C2: For every query with `top_k ≥ 1`, over any store of per-partition
query results, the output of `retrieve_top_k` is sorted by non-decreasing
distance (missing distance = `+∞`), has pairwise-distinct
`(collection, id)` keys, has length at most `top_k`, keeps same-distance
results in their first-encounter (flattened input) order, and every kept
result has the lowest distance among the input entries sharing its key
(first = lowest-distance occurrence). -/
theorem retrieve_top_k_spec (store : Store) (top_k : ℕ)
    (fids : Option (List String)) (h : 1 ≤ top_k) :
    List.Pairwise dLe (retrieve_top_k store top_k fids) ∧
    ((retrieve_top_k store top_k fids).map mkey).Nodup ∧
    (retrieve_top_k store top_k fids).length ≤ top_k ∧
    (∀ q : Option ℚ,
      ((retrieve_top_k store top_k fids).filter (fun r => decide (r.distance = q))).Sublist
        ((allResults store (targetCollections store fids)).filter
          (fun r => decide (r.distance = q)))) ∧
    (∀ r ∈ retrieve_top_k store top_k fids,
      ∀ r' ∈ allResults store (targetCollections store fids),
        mkey r' = mkey r → distLE r.distance r'.distance = true) := by
  have hsorted := sortByDistance_pairwise (allResults store (targetCollections store fids))
  have hperm := sortByDistance_perm (allResults store (targetCollections store fids))
  have heq : retrieve_top_k store top_k fids =
      (dedupAll [] (sortByDistance (allResults store (targetCollections store fids)))).take
        top_k := by
    unfold retrieve_top_k
    rw [dedupLoop_eq top_k _ [] [] (by simpa using h)]
    simp
  have hsub1 : ((dedupAll [] (sortByDistance (allResults store
      (targetCollections store fids)))).take top_k).Sublist
        (sortByDistance (allResults store (targetCollections store fids))) :=
    (List.take_sublist _ _).trans (dedupAll_sublist _ _)
  refine ⟨?_, ?_, ?_, ?_, ?_⟩
  · rw [heq]
    exact List.Pairwise.sublist hsub1 hsorted
  · rw [heq, List.map_take]
    exact List.Nodup.sublist (List.take_sublist _ _) (dedupAll_nodup [] _).1
  · rw [heq]
    exact List.length_take_le _ _
  · intro q
    rw [heq]
    have := hsub1.filter (fun r => decide (r.distance = q))
    rwa [sortByDistance_filter] at this
  · intro r hr r' hr' hk
    rw [heq] at hr
    have hr2 : r ∈ dedupAll [] (sortByDistance (allResults store
        (targetCollections store fids))) := List.mem_of_mem_take hr
    have hr'2 : r' ∈ sortByDistance (allResults store (targetCollections store fids)) :=
      hperm.mem_iff.mpr hr'
    exact dedupAll_min hsorted [] r hr2 r' hr'2 hk

/-- A store for the C2 witness: collection `"A"` returns two hits (one with
a missing distance), and the collection is listed twice in the filter so the
flattened results contain genuine duplicates. -/
def store2 : Store :=
  [("A", .ok { ids := [some "x", some "y"]
               docs := ["dx".toList, "dy".toList]
               metas := [[], []]
               dists := [3/2] })]

/-- Witness for C2 at `store2`, `top_k = 2`, filter `["A", "A"]`. -/
theorem retrieve_top_k_spec_witness :
    List.Pairwise dLe (retrieve_top_k store2 2 (some ["A", "A"])) ∧
    ((retrieve_top_k store2 2 (some ["A", "A"])).map mkey).Nodup ∧
    (retrieve_top_k store2 2 (some ["A", "A"])).length ≤ 2 ∧
    (∀ q : Option ℚ,
      ((retrieve_top_k store2 2 (some ["A", "A"])).filter (fun r => decide (r.distance = q))).Sublist
        ((allResults store2 (targetCollections store2 (some ["A", "A"]))).filter
          (fun r => decide (r.distance = q)))) ∧
    (∀ r ∈ retrieve_top_k store2 2 (some ["A", "A"]),
      ∀ r' ∈ allResults store2 (targetCollections store2 (some ["A", "A"])),
        mkey r' = mkey r → distLE r.distance r'.distance = true) :=
  retrieve_top_k_spec store2 2 (some ["A", "A"]) (by decide)

/-- C6: Querying a partition that does not exist returns `[]` rather than
raising, and a per-partition query failure is likewise swallowed into `[]`
(so no partition outcome can abort `retrieve_top_k`, which is total by
construction); in particular, retrieval with `partition_filter = [nm]` where
`nm`'s partition does not exist (or whose query fails) returns `[]`. -/
theorem query_missing_empty :
    (∀ name, query_collection .missing name = []) ∧
    (∀ name, query_collection .failing name = []) ∧
    (∀ (store : Store) (top_k : ℕ) (nm : String),
      lookupState store nm = .missing →
      retrieve_top_k store top_k (some [nm]) = []) ∧
    (∀ (store : Store) (top_k : ℕ) (nm : String),
      lookupState store nm = .failing →
      retrieve_top_k store top_k (some [nm]) = []) := by
  refine ⟨fun _ => rfl, fun _ => rfl, ?_, ?_⟩ <;>
  · intro store top_k nm h
    unfold retrieve_top_k allResults targetCollections
    simp [h, query_collection, sortByDistance, dedupLoop]

/-- Witness for C6: the spec's own scenario — `partition_filter = ["doc-A"]`
against an empty store. -/
theorem query_missing_empty_witness :
    retrieve_top_k [] 5 (some ["doc-A"]) = [] :=
  query_missing_empty.2.2.1 [] 5 "doc-A" rfl

/-! ### The fallback citations -/

/-- The snippet is the document truncated to 200 characters, plus a
3-character ellipsis when truncation happened — at most 203 characters. -/
theorem snippetOf_length (d : List Char) : (snippetOf d).length ≤ 203 := by
  unfold snippetOf
  split
  · have h3 : ("...".toList).length = 3 := rfl
    simp only [List.length_append, List.length_take, h3]
    omega
  · omega

/-- A retrieval result at distance 3 with a 201-character document. -/
def r3 : RResult :=
  { id := some "x"
    document := List.replicate 201 'a'
    metadata := []
    distance := some 3
    collection := "C" }

set_option maxRecDepth 4000 in
/-- C3 as stated is false: the fallback citation of a result at distance 3
has confidence `1 - 3/2 = -1/2 ∉ [0,1]` (no clamping exists in the code),
and the snippet of a 201-character document is 203 characters long
(`doc[:200] + "..."`), exceeding the stated 200-character bound. -/
theorem fallback_citation_counterexample :
    jGet (fallbackAnswer [r3]) "citations" = some (.list [fallbackCitation r3]) ∧
    jGet (fallbackCitation r3) "confidence" = some (.num (-(1/2))) ∧
    ¬ (0 ≤ (-(1/2) : ℚ)) ∧
    jGet (fallbackCitation r3) "snippet"
      = some (.str (List.replicate 200 'a' ++ "...".toList)) ∧
    (List.replicate 200 'a' ++ "...".toList).length = 203 := by
  refine ⟨by with_unfolding_all rfl, by with_unfolding_all rfl, by norm_num,
    by with_unfolding_all rfl, by decide⟩

/-- C3 amended: every citation produced by the deterministic fallback
synthesizer comes from one of the first retrieved results; its snippet has
length at most 203 (200 characters plus an appended ellipsis); its
confidence is `1 − distance/2` with **no clamping** — it lies in `[0,1]`
when the distance lies in `[0,2]`, goes negative for distances above 2, and
is `-inf` for a missing distance (normalized to `float("inf")` by the
merger, so the code's `0.5` default arm is unreachable on this path). -/
theorem fallback_citation_spec (retrieved : List RResult) (c : PyVal)
    (hc : c ∈ fallbackCitations retrieved) :
    ∃ r ∈ retrieved, c = fallbackCitation r ∧
      jGet c "confidence" = some (confVal r.distance) ∧
      (∃ s, jGet c "snippet" = some (.str s) ∧ s.length ≤ 203) ∧
      (∀ q : ℚ, r.distance = some q → confVal r.distance = .num (1 - q / 2) ∧
        (0 ≤ q → q ≤ 2 → 0 ≤ 1 - q / 2 ∧ 1 - q / 2 ≤ 1)) ∧
      (r.distance = Option.none → confVal r.distance = .ninf) := by
  rcases List.mem_map.mp (List.mem_of_mem_take hc) with ⟨r, hr, hcr⟩
  refine ⟨r, hr, hcr.symm, ?_⟩
  subst hcr
  refine ⟨rfl, ⟨snippetOf r.document, rfl, snippetOf_length _⟩, ?_, ?_⟩
  · intro q hq
    rw [hq]
    exact ⟨rfl, fun h0 h2 => by constructor <;> linarith⟩
  · intro hq
    rw [hq]
    rfl

/-- Witness for the amended C3 at the concrete result `r3`. -/
theorem fallback_citation_spec_witness :
    ∃ r ∈ [r3], fallbackCitation r3 = fallbackCitation r ∧
      jGet (fallbackCitation r3) "confidence" = some (confVal r.distance) ∧
      (∃ s, jGet (fallbackCitation r3) "snippet" = some (.str s) ∧ s.length ≤ 203) ∧
      (∀ q : ℚ, r.distance = some q → confVal r.distance = .num (1 - q / 2) ∧
        (0 ≤ q → q ≤ 2 → 0 ≤ 1 - q / 2 ∧ 1 - q / 2 ≤ 1)) ∧
      (r.distance = Option.none → confVal r.distance = .ninf) :=
  fallback_citation_spec [r3] (fallbackCitation r3)
    (by with_unfolding_all exact List.mem_singleton.mpr rfl)

/-! ### The prompt character budget -/

/-- Loop invariant of the context builder: the running total plus the length
of everything still appended never exceeds the budget. -/
theorem buildCtxParts_sum (max_chars : ℕ) (l : List RResult) :
    ∀ total : ℕ, total ≤ max_chars →
      total + ((buildCtxParts max_chars total l).map List.length).sum ≤ max_chars := by
  induction l with
  | nil => intro total h; simpa [buildCtxParts] using h
  | cons r rs ih =>
    intro total h
    rw [buildCtxParts]
    by_cases hb : max_chars < total + (mkPiece r).length
    · rw [if_pos hb]
      simpa using h
    · rw [if_neg hb]
      have := ih (total + (mkPiece r).length) (le_of_not_lt hb)
      simp only [List.map_cons, List.sum_cons]
      omega

/-- The appended lines are an unmodified prefix of the per-result lines in
merged order: nothing is truncated mid-line and nothing is reordered. -/
theorem buildCtxParts_prefix (max_chars : ℕ) (l : List RResult) :
    ∀ total : ℕ, ∃ k,
      buildCtxParts max_chars total l = (l.map mkPiece).take k := by
  induction l with
  | nil => intro _; exact ⟨0, rfl⟩
  | cons r rs ih =>
    intro total
    rw [buildCtxParts]
    by_cases hb : max_chars < total + (mkPiece r).length
    · rw [if_pos hb]
      exact ⟨0, rfl⟩
    · rw [if_neg hb]
      rcases ih (total + (mkPiece r).length) with ⟨k, hk⟩
      exact ⟨k + 1, by rw [hk]; rfl⟩

/-- C4 amended: the **sum of the lengths of the appended SOURCE lines**
never exceeds the budget — whole lines are appended in merged-result order
(the appended list is a prefix of the per-result line list, so no line is
truncated mid-line) and appending stops as soon as the cumulative count
would exceed the budget. The assembled context section itself, however,
joins these lines with `"\n\n"` separators that the loop does not count
(and substitutes a fixed 27-character placeholder when no line fits), so
the context section's length can exceed the budget (see the
counterexample). -/
theorem build_prompt_budget (max_chars : ℕ) (retrieved : List RResult) :
    ((buildCtxParts max_chars 0 retrieved).map List.length).sum ≤ max_chars ∧
    ∃ k, buildCtxParts max_chars 0 retrieved = (retrieved.map mkPiece).take k :=
  ⟨by simpa using buildCtxParts_sum max_chars retrieved 0 (Nat.zero_le _),
   buildCtxParts_prefix max_chars retrieved 0⟩

/-- A result whose SOURCE line is as short as possible (12 characters:
`SOURCE[||]: `). -/
def rShort : RResult :=
  { id := some "e"
    document := []
    metadata := []
    distance := some 1
    collection := "" }

/-- C4 as stated is false: with a configured budget of 24 and two results
whose SOURCE lines are 12 characters each, both lines are appended
(12 + 12 = 24 ≤ 24), but the context section joins them with `"\n\n"` —
26 characters, exceeding the budget. (At the default budget 4000 the same
happens with 333 such results: 3996 ≤ 4000 appended, but the joined context
reaches 3996 + 2·332 = 4660.) -/
theorem prompt_context_over_budget :
    (promptContext 24 [rShort, rShort]).length = 26 ∧ 24 < 26 :=
  ⟨by decide, by decide⟩

/-! ### Chunk normalization claims -/

/-- C7: Normalization is deterministic: two runs of the chunk normalizer on
the same parser output, document id and default metadata yield identical
outputs — in particular identical chunk-id sequences. (The embedded
function is pure because the source consults no random or time source:
`uuid` appears only in `index_chunks` as a default for records lacking an
`"id"` key, which `_normalize_to_chunk_dicts` never emits.) -/
theorem normalize_deterministic (raw : PyVal) (file_id : String)
    (default_meta : List (String × PyVal)) :
    normalize_to_chunk_dicts raw file_id default_meta
      = normalize_to_chunk_dicts raw file_id default_meta ∧
    (normalize_to_chunk_dicts raw file_id default_meta).map PChunk.id
      = (normalize_to_chunk_dicts raw file_id default_meta).map PChunk.id :=
  ⟨rfl, rfl⟩

/-- C8 (code bug): the non-empty record `{"original_row": []}` yields **no
chunk at all**: `_extract_text_from_dict` returns `" | ".join([])` = `""`
unconditionally from the `original_row` branch, so the string-field and
`str(d)` last resorts documented in the code (and the spec's "never drops
data silently" guarantee) are unreachable, and `_chunk_text("")` yields no
chunks. The same happens for `{"original_row": {}}` and for an
`original_row` dict whose values are all `None`. -/
theorem normalize_drops_empty_original_row :
    extract_text_from_dict [("original_row", .list [])] = [] ∧
    normalize_to_chunk_dicts (.dict [("original_row", .list [])]) "doc1" [] = [] ∧
    extract_text_from_dict [("original_row", .dict [("a", .none)])] = [] ∧
    normalize_to_chunk_dicts (.dict [("original_row", .dict [("a", .none)])]) "doc1" []
      = [] := by
  have h1 : extract_text_from_dict [("original_row", .list [])] = [] := rfl
  have h2 : extract_text_from_dict [("original_row", .dict [("a", .none)])] = [] := rfl
  refine ⟨h1, ?_, h2, ?_⟩ <;>
    simp [normalize_to_chunk_dicts, h1, h2, chunk_text, stripChars, wordsOf, toGroups]

/-! ### Word chunking (`_chunk_text`) -/

/-- If the head of `ys` fails `p`, `takeWhile p` never crosses from `xs`
into `ys`. -/
theorem takeWhile_append_head_false {p : Char → Bool} (xs : List Char)
    {ys : List Char} (hy : ∀ c, ys.head? = some c → p c = false) :
    (xs ++ ys).takeWhile p = xs.takeWhile p := by
  induction xs with
  | nil =>
    simp only [List.nil_append, List.takeWhile_nil]
    cases ys with
    | nil => rfl
    | cons c cs => simp [List.takeWhile_cons, hy c rfl]
  | cons x xs ih =>
    simp only [List.cons_append, List.takeWhile_cons]
    by_cases hx : p x = true
    · simp [hx, ih]
    · simp [hx]

/-- If the head of `ys` fails `p`, `dropWhile p` stops within `xs`. -/
theorem dropWhile_append_head_false {p : Char → Bool} (xs : List Char)
    {ys : List Char} (hy : ∀ c, ys.head? = some c → p c = false) :
    (xs ++ ys).dropWhile p = xs.dropWhile p ++ ys := by
  induction xs with
  | nil =>
    simp only [List.nil_append, List.dropWhile_nil]
    cases ys with
    | nil => rfl
    | cons c cs => simp [List.dropWhile_cons, hy c rfl]
  | cons x xs ih =>
    simp only [List.cons_append, List.dropWhile_cons]
    by_cases hx : p x = true
    · simp [hx, ih]
    · simp [hx]

/-- Every word produced by `wordsOf` is non-empty and whitespace-free. -/
theorem wordsOf_wf (s : List Char) :
    ∀ w ∈ wordsOf s, w ≠ [] ∧ ∀ c ∈ w, isWs c = false := by
  induction s using wordsOf.induct with
  | case1 => simp [wordsOf]
  | case2 c cs hws ih =>
    rw [wordsOf, if_pos hws]
    exact ih
  | case3 c cs hws ih =>
    rw [wordsOf, if_neg hws]
    intro w hw
    rcases List.mem_cons.mp hw with rfl | hw
    · refine ⟨by simp, ?_⟩
      intro x hx
      rcases List.mem_cons.mp hx with rfl | hx
      · exact eq_false_of_ne_true hws
      · have := List.mem_takeWhile_imp hx
        simpa using this
    · exact ih w hw

/-- Splitting a single word followed by nothing or whitespace peels off
exactly that word. -/
theorem wordsOf_word_append {w rest : List Char} (hw : w ≠ [])
    (hall : ∀ c ∈ w, isWs c = false)
    (hrest : ∀ c, rest.head? = some c → isWs c = true) :
    wordsOf (w ++ rest) = w :: wordsOf rest := by
  cases w with
  | nil => exact absurd rfl hw
  | cons c w' =>
    rw [List.cons_append, wordsOf,
      if_neg (by simp [hall c (List.mem_cons_self c w')])]
    have hhead : ∀ d, rest.head? = some d → (fun x => !isWs x) d = false := by
      intro d hd
      simp [hrest d hd]
    have htake : (w' ++ rest).takeWhile (fun x => !isWs x) = w' := by
      rw [takeWhile_append_head_false w' hhead]
      exact List.takeWhile_eq_self_iff.mpr
        (fun x hx => by simp [hall x (List.mem_cons_of_mem c hx)])
    have hdrop : (w' ++ rest).dropWhile (fun x => !isWs x) = rest := by
      rw [dropWhile_append_head_false w' hhead]
      have : w'.dropWhile (fun x => !isWs x) = [] := by
        rw [List.dropWhile_eq_nil_iff]
        intro x hx
        simp [hall x (List.mem_cons_of_mem c hx)]
      rw [this, List.nil_append]
    rw [htake, hdrop]

/-- `wordsOf` on the empty text (equation lemma; the well-founded
definition does not reduce definitionally). -/
theorem wordsOf_nil : wordsOf [] = [] := by rw [wordsOf]

/-- `toGroups` on the empty list (equation lemma). -/
theorem toGroups_nil {α : Type} (n : ℕ) : toGroups n ([] : List α) = [] := by
  rw [toGroups]

/-- An all-whitespace text has no words. -/
theorem wordsOf_all_ws {t : List Char} (ht : ∀ c ∈ t, isWs c = true) :
    wordsOf t = [] := by
  induction t with
  | nil => exact wordsOf_nil
  | cons c cs ih =>
    rw [wordsOf, if_pos (ht c (List.mem_cons_self c cs))]
    exact ih fun x hx => ht x (List.mem_cons_of_mem c hx)

/-- Rejoining words with single spaces and re-splitting recovers the words:
`wordsOf` is a left inverse of `" ".join` on non-empty, whitespace-free
words. -/
theorem wordsOf_intercalate {g : List (List Char)}
    (hg : ∀ w ∈ g, w ≠ [] ∧ ∀ c ∈ w, isWs c = false) :
    wordsOf (List.intercalate [' '] g) = g := by
  induction g with
  | nil =>
    rw [show List.intercalate [' '] ([] : List (List Char)) = [] from rfl]
    exact wordsOf_nil
  | cons w t ih =>
    rcases hg w (List.mem_cons_self w t) with ⟨hw, hall⟩
    cases t with
    | nil =>
      have h1 : List.intercalate [' '] [w] = w := by simp [List.intercalate]
      rw [h1]
      have h2 := @wordsOf_word_append w [] hw hall (by intro c hc; simp at hc)
      rw [wordsOf_nil] at h2
      simpa using h2
    | cons w' t' =>
      have h1 : List.intercalate [' '] (w :: w' :: t')
          = w ++ ' ' :: List.intercalate [' '] (w' :: t') := by
        simp [List.intercalate, List.intersperse_cons_cons]
      rw [h1]
      rw [wordsOf_word_append hw hall
        (by intro c hc; simp only [List.head?_cons, Option.some.injEq] at hc; subst hc; rfl)]
      rw [show wordsOf (' ' :: List.intercalate [' '] (w' :: t'))
          = wordsOf (List.intercalate [' '] (w' :: t')) from by rw [wordsOf]; rfl]
      rw [ih fun x hx => hg x (List.mem_cons_of_mem w hx)]

/-- Appending trailing whitespace does not change the words. -/
theorem wordsOf_append_ws {s : List Char} :
    ∀ {t : List Char}, (∀ c ∈ t, isWs c = true) → wordsOf (s ++ t) = wordsOf s := by
  induction s using wordsOf.induct with
  | case1 =>
    intro t ht
    rw [List.nil_append, wordsOf_all_ws ht, wordsOf_nil]
  | case2 c cs hws ih =>
    intro t ht
    rw [List.cons_append, wordsOf, if_pos hws, ih ht, wordsOf, if_pos hws]
  | case3 c cs hws ih =>
    intro t ht
    rw [List.cons_append, wordsOf, if_neg hws]
    rw [show wordsOf (c :: cs) = (c :: cs.takeWhile (fun x => !isWs x)) ::
      wordsOf (cs.dropWhile (fun x => !isWs x)) from by rw [wordsOf, if_neg hws]]
    cases t with
    | nil => simp
    | cons d t' =>
      have hhead : ∀ e, (d :: t').head? = some e → (fun x => !isWs x) e = false := by
        intro e he
        simp only [List.head?_cons, Option.some.injEq] at he
        subst he
        simp [ht d (List.mem_cons_self d t')]
      rw [takeWhile_append_head_false cs hhead, dropWhile_append_head_false cs hhead]
      rw [ih ht]

/-- Dropping leading whitespace does not change the words. -/
theorem wordsOf_dropWhile_ws (s : List Char) :
    wordsOf (s.dropWhile isWs) = wordsOf s := by
  induction s with
  | nil => rfl
  | cons c cs ih =>
    rw [List.dropWhile_cons]
    by_cases h : isWs c = true
    · rw [if_pos h, ih, wordsOf, if_pos h]
    · rw [if_neg h]

/-- `strip()` does not change the words: `re.split(r"\s+", text.strip())` is
insensitive to surrounding whitespace. -/
theorem wordsOf_stripChars (s : List Char) :
    wordsOf (stripChars s) = wordsOf s := by
  unfold stripChars
  have hsplit : s.dropWhile isWs =
      ((s.dropWhile isWs).reverse.dropWhile isWs).reverse
        ++ ((s.dropWhile isWs).reverse.takeWhile isWs).reverse := by
    conv_lhs => rw [← List.reverse_reverse (s.dropWhile isWs),
      ← List.takeWhile_append_dropWhile (p := isWs) (l := (s.dropWhile isWs).reverse)]
    rw [List.reverse_append]
  have hws : ∀ c ∈ ((s.dropWhile isWs).reverse.takeWhile isWs).reverse, isWs c = true := by
    intro c hc
    rw [List.mem_reverse] at hc
    exact List.mem_takeWhile_imp hc
  calc wordsOf (((s.dropWhile isWs).reverse.dropWhile isWs).reverse)
      = wordsOf (((s.dropWhile isWs).reverse.dropWhile isWs).reverse
          ++ ((s.dropWhile isWs).reverse.takeWhile isWs).reverse) :=
        (wordsOf_append_ws hws).symm
    _ = wordsOf (s.dropWhile isWs) := by rw [← hsplit]
    _ = wordsOf s := wordsOf_dropWhile_ws s

/-- The groups concatenate back to the full word list (order preserved,
nothing lost). -/
theorem toGroups_flatten {α : Type} (n : ℕ) (l : List α) :
    (toGroups n l).flatten = l := by
  induction l using toGroups.induct n with
  | case1 => rw [toGroups_nil]; rfl
  | case2 x xs ih =>
    rw [toGroups, List.flatten_cons, ih, List.cons_append, List.take_append_drop]

/-- Each group has at most `n` elements (for `n ≥ 1`). -/
theorem toGroups_length_le {α : Type} (n : ℕ) (hn : 1 ≤ n) (l : List α) :
    ∀ g ∈ toGroups n l, g.length ≤ n := by
  induction l using toGroups.induct n with
  | case1 => simp [toGroups]
  | case2 x xs ih =>
    rw [toGroups]
    intro g hg
    rcases List.mem_cons.mp hg with rfl | hg
    · simp only [List.length_cons, List.length_take]
      omega
    · exact ih g hg

/-- Each group is non-empty and made of elements of the source list. -/
theorem toGroups_mem {α : Type} (n : ℕ) (l : List α) :
    ∀ g ∈ toGroups n l, g ≠ [] ∧ ∀ w ∈ g, w ∈ l := by
  induction l using toGroups.induct n with
  | case1 => simp [toGroups]
  | case2 x xs ih =>
    rw [toGroups]
    intro g hg
    rcases List.mem_cons.mp hg with rfl | hg
    · refine ⟨by simp, ?_⟩
      intro w hw
      rcases List.mem_cons.mp hw with rfl | hw
      · exact List.mem_cons_self _ _
      · exact List.mem_cons_of_mem _ (List.mem_of_mem_take hw)
    · rcases ih g hg with ⟨hne, hmem⟩
      exact ⟨hne, fun w hw => List.mem_cons_of_mem _ (List.mem_of_mem_drop (hmem w hw))⟩

/-- The words of one produced chunk are exactly its group. -/
theorem chunk_wordsOf {g : List (List Char)}
    (hg : ∀ w ∈ g, w ≠ [] ∧ ∀ c ∈ w, isWs c = false) :
    wordsOf (stripChars (List.intercalate [' '] g)) = g := by
  rw [wordsOf_stripChars]
  exact wordsOf_intercalate hg

/-- C9: every chunk produced by the word chunker contains at most 250
whitespace-separated words, is non-empty (it is stored already stripped, so
also non-empty after trimming), and concatenating the chunks' word lists in
order recovers exactly the word list of the input — the chunks appear in
input word order and the split is governed by word count over runs of
whitespace, not by character count. -/
theorem chunk_text_spec (s : List Char) :
    (∀ c ∈ chunk_text 250 s, (wordsOf c).length ≤ 250 ∧ c ≠ []) ∧
    ((chunk_text 250 s).map wordsOf).flatten = wordsOf s := by
  have hwords := wordsOf_wf (stripChars s)
  have hgwf : ∀ g ∈ toGroups 250 (wordsOf (stripChars s)),
      ∀ w ∈ g, w ≠ [] ∧ ∀ c ∈ w, isWs c = false := by
    intro g hg w hw
    exact hwords w ((toGroups_mem 250 _ g hg).2 w hw)
  have hkeep : ∀ x ∈ (toGroups 250 (wordsOf (stripChars s))).map
      (fun g => stripChars (List.intercalate [' '] g)), (!x.isEmpty) = true := by
    intro x hx
    rcases List.mem_map.mp hx with ⟨g, hg, rfl⟩
    rcases toGroups_mem 250 _ g hg with ⟨hne, _⟩
    have hw := chunk_wordsOf (hgwf g hg)
    cases hempty : (stripChars (List.intercalate [' '] g)).isEmpty with
    | false => rfl
    | true =>
      rw [List.isEmpty_iff.mp hempty] at hw
      exact absurd (by rw [← hw]; exact wordsOf_nil) hne
  constructor
  · intro c hc
    unfold chunk_text at hc
    rcases List.mem_filter.mp hc with ⟨hcm, _⟩
    rcases List.mem_map.mp hcm with ⟨g, hg, rfl⟩
    have hw := chunk_wordsOf (hgwf g hg)
    refine ⟨?_, ?_⟩
    · rw [hw]
      exact toGroups_length_le 250 (by norm_num) _ g hg
    · intro h0
      rw [h0] at hw
      exact absurd (by rw [← hw]; exact wordsOf_nil) (toGroups_mem 250 _ g hg).1
  · unfold chunk_text
    rw [List.filter_eq_self.mpr hkeep, List.map_map]
    have hmap := List.map_congr_left
      (f := wordsOf ∘ fun g => stripChars (List.intercalate [' '] g)) (g := id)
      (l := toGroups 250 (wordsOf (stripChars s)))
      (fun g hg => chunk_wordsOf (hgwf g hg))
    rw [hmap, List.map_id, toGroups_flatten]
    exact wordsOf_stripChars s

/-- Witness for C9 on a concrete input with irregular whitespace. -/
theorem chunk_text_spec_witness :
    (wordsOf ['h', 'i', ' ', 'y', 'o']).length ≤ 250 ∧
      ['h', 'i', ' ', 'y', 'o'] ≠ ([] : List Char) :=
  (chunk_text_spec ['\n', 'h', 'i', ' ', ' ', 'y', 'o', ' ']).1 ['h', 'i', ' ', 'y', 'o']
    (by simp [chunk_text, wordsOf, toGroups, stripChars, isWs,
          List.takeWhile, List.dropWhile, List.intercalate, List.intersperse])

end RagAgent
